import Mathlib

/-!
Shallow embedding of `changeLogBuilder.js` (Changeset-Log-Builder), covering the
manifest merge engine: the parsed `package.xml` data model, `mergeObjects` /
`appendTypesToPackage` / `getUnique`, the normalization performed by
`sortValues` and by the group sort in `writeFiles`, the CSV projection
`jsonToCSV`, the configuration load in `init`, and the exit paths.

Parsed XML objects come from `xml2js.parseString`; at the point where the
merge engine consumes them, a `types` entry carries a `name` (converted with
`String(...)` to a plain string by `mergeObjects`/`appendTypesToPackage`) and
a `members` array of strings.  We embed that consumed shape directly:
`name : String`, `members : List String`.
-/

namespace ChangeLogBuilder

/-- One entry of `Package.types`, as consumed by the merge engine:
a type name and its list of member identifiers. -/
structure PackageType where
  name : String
  members : List String
deriving DecidableEq, Repr

/-- The merged package object (`{ Package: { version, types } }`),
flattened to its `Package` payload. -/
structure Package where
  version : String
  types : List PackageType
deriving DecidableEq, Repr

/-- The `Package` property of a parsed file.  `types := none` models a parsed
object whose `Package` lacks the `types` property
(`thisFile.Package.hasOwnProperty("types")` is false). -/
structure PackageObj where
  version : String
  types : Option (List PackageType)
deriving DecidableEq, Repr

/-- One element of the array produced by `readPackageXML`:
either no object at all (`!thisFile`), an object without a `Package`
property, or an object carrying a `Package` payload. -/
inductive ParsedFile where
  | nullFile : ParsedFile
  | noPackage : ParsedFile
  | withPackage (pack : PackageObj) : ParsedFile
deriving DecidableEq, Repr

/-- The guard of `mergeObjects`:
`thisFile && thisFile.hasOwnProperty("Package") && thisFile.Package.hasOwnProperty("types")`. -/
def hasTypesCollection : ParsedFile → Bool
  | .withPackage p => p.types.isSome
  | _ => false

/-- Embeds `getUnique(array)`: walks the array front to back, pushing each element
not already present (`indexOf === -1`) onto `uniqueArray`. -/
def getUnique (array : List String) : List String :=
  array.foldl (fun uniqueArray x => if x ∈ uniqueArray then uniqueArray else uniqueArray ++ [x]) []

/-- Embeds `appendTypesToPackage(typeName, members, packageObject)`: the `forEach`
updates every type whose name equals `typeName` (setting its members to the
deduplicated concatenation); if none matched, a fresh
`{ name: typeName, members: getUnique(members) }` is appended.
(The JS guard re-initializing a missing `types` property cannot fire in our
embedding: `Package.types` is always present, as it is on every real
accumulator, which starts from `createPackageXmlTemplate`.) -/
def appendTypesToPackage (typeName : String) (members : List String)
    (packageObject : Package) : Package :=
  let matchFound := packageObject.types.any (fun t => t.name == typeName)
  let updated := packageObject.types.map (fun thisType =>
    if thisType.name == typeName then
      { thisType with members := getUnique (thisType.members ++ members) }
    else thisType)
  if matchFound then { packageObject with types := updated }
  else { packageObject with types := updated ++ [{ name := typeName, members := getUnique members }] }

/-- The body of `mergeObjects`' `forEach` for one file: when the guard holds,
fold every type of the file into the accumulator with `appendTypesToPackage`
(with the `String(thisType.name)` conversion already reflected in
`PackageType.name : String`); otherwise log "Malfomred or empty packaged
file" and leave the accumulator unchanged. -/
def processFile (packageObject : Package) (thisFile : ParsedFile) : Package :=
  match thisFile with
  | .withPackage p =>
    match p.types with
    | some ts => ts.foldl (fun acc thisType =>
        appendTypesToPackage thisType.name thisType.members acc) packageObject
    | none => packageObject
  | _ => packageObject

/-- Embeds `mergeObjects(filesDataArray, packageObject)`: fold all files into the
accumulator. -/
def mergeObjects (filesDataArray : List ParsedFile) (packageObject : Package) : Package :=
  filesDataArray.foldl processFile packageObject

/-- The 0-based indices `index` for which `mergeObjects` takes its `else`
branch and logs `"Malfomred or empty packaged file: " + index`. -/
def malformedIndices (filesDataArray : List ParsedFile) : List Nat :=
  (filesDataArray.enum.filter (fun p => ! hasTypesCollection p.snd)).map Prod.fst

/-- Embeds `createPackageXmlTemplate()`: parses the fixed `packageStructure` markup
(`<Package ...><version>48.0</version></Package>`) and sets `types := []`. -/
def createPackageXmlTemplate : Package :=
  { version := "48.0", types := [] }

/-! ### The string order used by the sorts

JS string comparison (`<` / `>`, as used both by the default
`Array.prototype.sort` comparator and by `writeFiles`' group comparator)
is lexicographic on the code units of the two strings.  We embed it as a
lexicographic comparison of the character lists underlying Lean strings. -/

/-- Lexicographic less-or-equal on character lists. -/
def charListLe : List Char → List Char → Bool
  | [], _ => true
  | _ :: _, [] => false
  | a :: as, b :: bs => if a < b then true else if b < a then false else charListLe as bs

/-- Lexicographic string comparison: `a <= b` in the JS sense. -/
def strLe (a b : String) : Prop := charListLe a.data b.data = true

instance : DecidableRel strLe := fun a b => inferInstanceAs (Decidable (charListLe a.data b.data = true))

instance : IsTotal String strLe := ⟨by
  intro a b
  suffices h : ∀ as bs : List Char, charListLe as bs = true ∨ charListLe bs as = true from
    (h a.data b.data).imp id id
  intro as
  induction as with
  | nil => intro bs; exact Or.inl rfl
  | cons a as ih =>
    intro bs
    cases bs with
    | nil => exact Or.inr rfl
    | cons b bs =>
      rcases lt_trichotomy a b with hab | hab | hab
      · left; simp [charListLe, hab]
      · subst hab
        rcases ih bs with h | h
        · left; simp [charListLe, h]
        · right; simp [charListLe, h]
      · right; simp [charListLe, hab]⟩

instance : IsTrans String strLe := ⟨by
  intro a b c hab hbc
  suffices h : ∀ as bs cs : List Char,
      charListLe as bs = true → charListLe bs cs = true → charListLe as cs = true from
    h _ _ _ hab hbc
  intro as
  induction as with
  | nil => intro bs cs _ _; rfl
  | cons a as ih =>
    intro bs cs hab hbc
    cases bs with
    | nil => simp [charListLe] at hab
    | cons b bs =>
      cases cs with
      | nil => simp [charListLe] at hbc
      | cons c cs =>
        rcases lt_trichotomy a b with h₁ | h₁ | h₁
        · rcases lt_trichotomy b c with h₂ | h₂ | h₂
          · simp [charListLe, lt_trans h₁ h₂]
          · subst h₂; simp [charListLe, h₁]
          · simp [charListLe, h₂, not_lt_of_lt h₂] at hbc
        · subst h₁
          rcases lt_trichotomy a c with h₂ | h₂ | h₂
          · simp [charListLe, h₂]
          · subst h₂
            simp only [charListLe, if_neg (lt_irrefl a), if_false] at hab hbc ⊢
            exact ih bs cs hab hbc
          · simp [charListLe, h₂, not_lt_of_lt h₂] at hbc
        · simp [charListLe, h₁, not_lt_of_lt h₁] at hab⟩

instance : IsAntisymm String strLe := ⟨by
  intro a b hab hba
  suffices h : ∀ as bs : List Char, charListLe as bs = true → charListLe bs as = true → as = bs by
    cases a; cases b
    exact congrArg String.mk (h _ _ hab hba)
  intro as
  induction as with
  | nil => intro bs h₁ _; cases bs with
    | nil => rfl
    | cons b bs => simp [charListLe] at *
  | cons a as ih =>
    intro bs h₁ h₂
    cases bs with
    | nil => simp [charListLe] at h₁
    | cons b bs =>
      rcases lt_trichotomy a b with h | h | h
      · simp [charListLe, h, not_lt_of_lt h] at h₂
      · subst h
        simp only [charListLe, if_neg (lt_irrefl a), if_false] at h₁ h₂
        rw [ih bs h₁ h₂]
      · simp [charListLe, h, not_lt_of_lt h] at h₁⟩

instance : IsRefl String strLe := ⟨by
  intro a
  suffices h : ∀ as : List Char, charListLe as as = true from h a.data
  intro as
  induction as with
  | nil => rfl
  | cons a as ih => simp [charListLe, ih]⟩

/-- The group order used by `writeFiles`:
`(a, b) => (a.name > b.name ? 1 : -1)` places `a` before `b` exactly when
`a.name <= b.name`. -/
def nameLe (a b : PackageType) : Prop := strLe a.name b.name

instance : DecidableRel nameLe := fun a b => inferInstanceAs (Decidable (strLe a.name b.name))

instance : IsTotal PackageType nameLe := ⟨fun a b => IsTotal.total (r := strLe) a.name b.name⟩

instance : IsTrans PackageType nameLe :=
  ⟨fun _ _ _ h h' => IsTrans.trans (r := strLe) _ _ _ h h'⟩

/-- One step of `sortValues`: `thisType.members.sort()` — the type with its
members sorted by the default string comparator. -/
def sortMembers (thisType : PackageType) : PackageType :=
  { thisType with members := List.insertionSort strLe thisType.members }

/-- Embeds `sortValues(packageObject)`: sorts each type's `members` in place with the
default string comparator (`Array.prototype.sort`), modelled by a stable sort
under the lexicographic string order. -/
def sortValues (packageObject : Package) : Package :=
  { packageObject with types := packageObject.types.map sortMembers }

/-- The first line of `writeFiles`:
`objectData.Package.types = objectData.Package.types.sort((a, b) => (a.name > b.name ? 1 : -1))`,
modelled by a stable sort under `nameLe`. -/
def sortTypesByName (packageObject : Package) : Package :=
  { packageObject with types := List.insertionSort nameLe packageObject.types }

/-- The normalization applied to the merged data before emission:
`sortValues` in `init`, then the group sort at the top of `writeFiles`. -/
def normalize (packageObject : Package) : Package :=
  sortTypesByName (sortValues packageObject)

/-- The names of the groups of a package, in order. -/
def namesOf (packageObject : Package) : List String :=
  packageObject.types.map (·.name)

/-- The first group carrying name `n`, as the `forEach` of
`appendTypesToPackage` would first encounter it. -/
def findGroup (n : String) (packageObject : Package) : Option PackageType :=
  packageObject.types.find? (fun t => t.name == n)

/-- The members of the group named `n`, or `[]` when there is no such
group. -/
def groupMembersD (n : String) (packageObject : Package) : List String :=
  ((findGroup n packageObject).getD { name := n, members := [] }).members

/-- The (name, members) contributions of one parsed file, in source order:
what `mergeObjects` passes to `appendTypesToPackage` for that file. -/
def filePairs : ParsedFile → List (String × List String)
  | .withPackage p =>
    match p.types with
    | some ts => ts.map (fun t => (t.name, t.members))
    | none => []
  | _ => []

/-- Folding a flat list of (name, members) contributions into an
accumulator with `appendTypesToPackage`. -/
def foldPairs (packageObject : Package) (ps : List (String × List String)) : Package :=
  ps.foldl (fun acc pr => appendTypesToPackage pr.fst pr.snd acc) packageObject

/-- Two groups with the same content: the same name and the same members in
some order. -/
def GroupEquiv (t₁ t₂ : PackageType) : Prop :=
  t₁.name = t₂.name ∧ t₁.members.Perm t₂.members

/-! ### The CSV projection `jsonToCSV` -/

/-- The header loop of `jsonToCSV`: for each type, append its name and a
comma to the accumulating string. -/
def csvHeader (types : List PackageType) : String :=
  types.foldl (fun csvString t => csvString ++ t.name ++ ",") ""

/-- The `rowLimit` computation of `jsonToCSV`: the running maximum of the
member counts (`if (... .members.length > rowLimit) rowLimit = ...`). -/
def rowLimit (types : List PackageType) : Nat :=
  types.foldl (fun limit t => if t.members.length > limit then t.members.length else limit) 0

/-- One cell of a data row: `if (colValues[col][index]) row += colValues[col][index] + ","`
— the member together with its trailing comma when the indexed element exists
and is truthy (a non-empty string) — `else row += '"",'`. -/
def csvCell (members : List String) (index : Nat) : String :=
  match members.get? index with
  | some m => if m = "" then "\"\"," else m ++ ","
  | none => "\"\","

/-- One data row of `jsonToCSV`: the concatenation of the cells of every
column (`colValues` is `types.map (·.members)`), followed by `"\r\n"`. -/
def csvRow (colValues : List (List String)) (index : Nat) : String :=
  (colValues.foldl (fun row col => row ++ csvCell col index) "") ++ "\r\n"

/-- The list of data-row strings emitted by the outer `for` loop of
`jsonToCSV`, for `index = 0 .. rowLimit - 1`. -/
def csvDataRows (packageAsJsonObject : Package) : List String :=
  (List.range (rowLimit packageAsJsonObject.types)).map
    (csvRow (packageAsJsonObject.types.map (·.members)))

/-- Embeds `jsonToCSV(packageAsJsonObject)`: the header row, `"\r\n"`, then all the
data rows concatenated in order. -/
def jsonToCSV (packageAsJsonObject : Package) : String :=
  csvHeader packageAsJsonObject.types ++ "\r\n" ++
    ((List.range (rowLimit packageAsJsonObject.types)).foldl
      (fun csvString index =>
        csvString ++ csvRow (packageAsJsonObject.types.map (·.members)) index) "")

/-! ### Configuration loading (`loadConfig`, `init`) -/

/-- The built-in `config` object literal at the top of the script. -/
structure Config where
  skipExistingChangeSets : Bool
  rootFolder : String
  forcePackageVersion : Option Nat
  automaticallyFetchChangeSetNames : Bool
  changesetJSONFile : String
  createMergedPackage : Bool
  mergedPackageFolder : String
  username : String
  outputFolder : String
deriving DecidableEq, Repr

/-- The default configuration values assigned to `config` at startup. -/
def defaultConfig : Config :=
  { skipExistingChangeSets := true
    rootFolder := "packages"
    forcePackageVersion := some 50
    automaticallyFetchChangeSetNames := true
    changesetJSONFile := "changeSetNames.json"
    createMergedPackage := true
    mergedPackageFolder := "__mergedPackage"
    username := ""
    outputFolder := "results" }

/-- A parsed `config.json`: each recognized property is either present (and
would override the default under a spread) or absent. -/
structure ConfigOverrides where
  skipExistingChangeSets : Option Bool
  rootFolder : Option String
  forcePackageVersion : Option (Option Nat)
  automaticallyFetchChangeSetNames : Option Bool
  changesetJSONFile : Option String
  createMergedPackage : Option Bool
  mergedPackageFolder : Option String
  username : Option String
  outputFolder : Option String
deriving DecidableEq, Repr

/-- Object-spread merge `{ ...base, ...o }` for the recognized keys: a key
present in `o` wins, an absent key keeps the base value. -/
def spreadMerge (base : Config) (o : ConfigOverrides) : Config :=
  { skipExistingChangeSets := o.skipExistingChangeSets.getD base.skipExistingChangeSets
    rootFolder := o.rootFolder.getD base.rootFolder
    forcePackageVersion := o.forcePackageVersion.getD base.forcePackageVersion
    automaticallyFetchChangeSetNames :=
      o.automaticallyFetchChangeSetNames.getD base.automaticallyFetchChangeSetNames
    changesetJSONFile := o.changesetJSONFile.getD base.changesetJSONFile
    createMergedPackage := o.createMergedPackage.getD base.createMergedPackage
    mergedPackageFolder := o.mergedPackageFolder.getD base.mergedPackageFolder
    username := o.username.getD base.username
    outputFolder := o.outputFolder.getD base.outputFolder }

/-- Embeds `loadConfig(configFileName)`: the body evaluates
`readJSONFromFile(configFileName)` but contains no `return` statement, so the
call expression yields `undefined` whatever the parsed file holds.  `none`
models that `undefined` result; the argument is the successfully parsed
content of the configuration file. -/
def loadConfig (parsedConfigFile : ConfigOverrides) : Option ConfigOverrides :=
  let _ := parsedConfigFile
  none

/-- The startup merge in `init`: `config = { ...config, ...loadedConfig }`.
Spreading `undefined` (`none`) contributes no keys. -/
def initEffectiveConfig (parsedConfigFile : ConfigOverrides) : Config :=
  match loadConfig parsedConfigFile with
  | none => defaultConfig
  | some o => spreadMerge defaultConfig o

/-! ### Structured-markup emission and re-parsing (round trip)

`writeFiles` emits the markup with `new xml2js.Builder().buildObject(objectData)`
and `readPackageXML` re-parses such files with `xml2js.parseString`; both
functions live in the external `xml2js` dependency, not in this repository,
so they are modelled from the spec at the level of element trees. -/

/-- An element tree of the structured markup: an element with a tag and
children, or a text node. -/
inductive XmlNode where
  | elem (tag : String) (children : List XmlNode) : XmlNode
  | text (s : String) : XmlNode

/-- Modelled from the spec: the markup for one group element emitted by the
Multi-Format Emitter (xml2js `Builder` on a `types` entry) — a `types`
element carrying a `name` field and an ordered list of `members` fields. -/
def buildTypeNode (t : PackageType) : XmlNode :=
  .elem "types" (.elem "name" [.text t.name] ::
    t.members.map (fun m => .elem "members" [.text m]))

/-- Modelled from the spec: the markup document emitted by the Multi-Format
Emitter (xml2js `Builder` on the merged object) — one top-level `Package`
container holding `version` and the ordered list of group elements. -/
def buildObject (m : Package) : XmlNode :=
  .elem "Package" (.elem "version" [.text m.version] :: m.types.map buildTypeNode)

/-- The text content of a leaf element carrying `tag`, if `c` is one. -/
def leafText (tag : String) : XmlNode → Option String
  | .elem t [.text s] => if t = tag then some s else none
  | _ => none

/-- The text contents of the leaf children of `children` carrying `tag`, in
order — how the markup parser collects a repeated child element into an
array of strings. -/
def childElemTexts (tag : String) (children : List XmlNode) : List String :=
  children.filterMap (leafText tag)

/-- The collected texts for `tag`, or `none` when no child carries `tag`:
the parser materializes a property only for tags that actually occur, so an
absent tag yields an absent property. -/
def collectOpt (tag : String) (children : List XmlNode) : Option (List String) :=
  match childElemTexts tag children with
  | [] => none
  | ts => some ts

/-- A parsed group element as the markup parser leaves it: the collected
`name` texts and the collected `members` texts, each property absent when no
such child occurred. -/
structure RawType where
  name : Option (List String)
  members : Option (List String)
deriving DecidableEq, Repr

/-- The parsed top-level container: the collected `version` texts and the
parsed group elements, each property absent when no such child occurred. -/
structure RawPackage where
  version : Option (List String)
  types : Option (List RawType)
deriving DecidableEq, Repr

/-- The parsed form of a group element, if `c` is one. -/
def typeNodeRaw : XmlNode → Option RawType
  | .elem "types" cs =>
    some { name := collectOpt "name" cs, members := collectOpt "members" cs }
  | _ => none

/-- Modelled from the spec: the group elements found among `children`,
or `none` when there are none (the parser omits the `types` property of a
container with no group children). -/
def collectTypes (children : List XmlNode) : Option (List RawType) :=
  match children.filterMap typeNodeRaw with
  | [] => none
  | ts => some ts

/-- Modelled from the spec: the Manifest Parser's reading of a markup
document (xml2js `parseString` restricted to manifest markup).  A document
whose root is not the expected `Package` container does not parse. -/
def parsePackageMarkup (root : XmlNode) : Option RawPackage :=
  match root with
  | .elem "Package" children =>
    some { version := collectOpt "version" children, types := collectTypes children }
  | _ => none

/-- The parsed structure read back as a Manifest value: defined exactly when
the top-level container has a `version`, a groups collection, and every group
a single `name` and a `members` list — the shape the merge engine consumes. -/
def rawTypeToPackageType (t : RawType) : Option PackageType :=
  match t.name, t.members with
  | some [n], some ms => some { name := n, members := ms }
  | _, _ => none

/-- The parsed container read back as a `Package`, when possible. -/
def rawToPackage (p : RawPackage) : Option Package :=
  match p.version, p.types with
  | some [v], some ts =>
    match ts.mapM rawTypeToPackageType with
    | some tys => some { version := v, types := tys }
    | none => none
  | _, _ => none

/-- Emit a manifest as markup and re-parse it with the Manifest Parser,
reading the result back as a `Package` when the parsed structure has the
expected shape. -/
def emitParsedManifest (m : Package) : Option Package :=
  match parsePackageMarkup (buildObject m) with
  | some raw => rawToPackage raw
  | none => none

/-! ### Exit paths -/

/-- The argument of `process.exit` in `finish()`, the end of a successful
run. -/
def finishExitCode : Nat := 1

/-- The argument of `process.exit` in the `uncaughtException` handler. -/
def uncaughtExceptionExitCode : Nat := 1


/-! ### Sample data (used to exercise the theorems on concrete inputs) -/

/-- A parsed source manifest: one `ApexClass` group with members Foo, Bar. -/
def sampleFileA : ParsedFile :=
  .withPackage
    { version := "48.0", types := some [{ name := "ApexClass", members := ["Foo", "Bar"] }] }

/-- A parsed source manifest: one `ApexClass` group with members Bar, Baz. -/
def sampleFileB : ParsedFile :=
  .withPackage
    { version := "48.0", types := some [{ name := "ApexClass", members := ["Bar", "Baz"] }] }

/-- A merged package with two groups of unequal member counts. -/
def csvSamplePackage : Package :=
  { version := "50",
    types := [{ name := "ApexClass", members := ["Foo", "Bar", "Baz"] },
              { name := "CustomObject", members := ["Account"] }] }

/-- A merged package listing ApexClass before CustomObject, members in one
order. -/
def samplePackageP1 : Package :=
  { version := "50",
    types := [{ name := "ApexClass", members := ["Foo", "Bar"] },
              { name := "CustomObject", members := ["Account"] }] }

/-- The same content as `samplePackageP1`: groups and members shuffled. -/
def samplePackageP2 : Package :=
  { version := "50",
    types := [{ name := "CustomObject", members := ["Account"] },
              { name := "ApexClass", members := ["Bar", "Foo"] }] }

/-- The groups of `samplePackageP1` reordered to line up with `samplePackageP2`. -/
def samplePackageMid : List PackageType :=
  [{ name := "CustomObject", members := ["Account"] },
   { name := "ApexClass", members := ["Foo", "Bar"] }]

/-- A merged package with two non-empty groups. -/
def samplePackage : Package :=
  { version := "50",
    types := [{ name := "CustomObject", members := ["Account"] },
              { name := "ApexClass", members := ["Foo", "Bar"] }] }

/-! ## Lemmas about `getUnique` -/

theorem mem_dedupFold (l : List String) :
    ∀ (acc : List String) (a : String),
      (a ∈ l.foldl
          (fun uniqueArray x => if x ∈ uniqueArray then uniqueArray else uniqueArray ++ [x]) acc)
        ↔ a ∈ acc ∨ a ∈ l := by
  induction l with
  | nil => intro acc a; simp
  | cons x l ih =>
    intro acc a
    simp only [List.foldl_cons]
    by_cases hx : x ∈ acc
    · rw [if_pos hx, ih]
      simp only [List.mem_cons]
      constructor
      · rintro (h | h)
        · exact Or.inl h
        · exact Or.inr (Or.inr h)
      · rintro (h | rfl | h)
        · exact Or.inl h
        · exact Or.inl hx
        · exact Or.inr h
    · rw [if_neg hx, ih]
      simp only [List.mem_append, List.mem_singleton, List.mem_cons]
      tauto

theorem mem_getUnique {l : List String} {a : String} : a ∈ getUnique l ↔ a ∈ l := by
  rw [getUnique, mem_dedupFold]
  simp

theorem nodup_dedupFold (l : List String) :
    ∀ acc : List String, acc.Nodup →
      (l.foldl
        (fun uniqueArray x => if x ∈ uniqueArray then uniqueArray else uniqueArray ++ [x])
        acc).Nodup := by
  induction l with
  | nil => intro acc h; simpa using h
  | cons x l ih =>
    intro acc h
    simp only [List.foldl_cons]
    by_cases hx : x ∈ acc
    · rw [if_pos hx]; exact ih acc h
    · rw [if_neg hx]
      exact ih _ (by simp [List.nodup_append, h, hx])

theorem nodup_getUnique (l : List String) : (getUnique l).Nodup :=
  nodup_dedupFold l [] List.nodup_nil

/-! ## Lemmas about `appendTypesToPackage` -/

theorem version_appendTypesToPackage (n : String) (ms : List String) (P : Package) :
    (appendTypesToPackage n ms P).version = P.version := by
  simp only [appendTypesToPackage]
  split <;> rfl

theorem name_updateFun (n : String) (ms : List String) (t : PackageType) :
    (if t.name == n then { t with members := getUnique (t.members ++ ms) } else t).name
      = t.name := by
  split <;> rfl

theorem any_name_iff (n : String) (P : Package) :
    (P.types.any fun t => t.name == n) = true ↔ n ∈ namesOf P := by
  rw [List.any_eq_true]
  constructor
  · rintro ⟨t, ht, hbeq⟩
    exact List.mem_map.mpr ⟨t, ht, beq_iff_eq.mp hbeq⟩
  · intro h
    rcases List.mem_map.mp h with ⟨t, ht, rfl⟩
    exact ⟨t, ht, beq_iff_eq.mpr rfl⟩

theorem namesOf_appendTypesToPackage (n : String) (ms : List String) (P : Package) :
    namesOf (appendTypesToPackage n ms P) =
      if n ∈ namesOf P then namesOf P else namesOf P ++ [n] := by
  have hmap : (P.types.map (fun thisType =>
      if thisType.name == n then
        { thisType with members := getUnique (thisType.members ++ ms) }
      else thisType)).map (·.name) = P.types.map (·.name) := by
    rw [List.map_map]
    exact List.map_congr_left (fun t _ => name_updateFun n ms t)
  by_cases h : n ∈ namesOf P
  · have hany := (any_name_iff n P).mpr h
    rw [if_pos h]
    simp only [appendTypesToPackage, hany, if_true, namesOf]
    exact hmap
  · have hany : (P.types.any fun t => t.name == n) = false := by
      cases hh : P.types.any fun t => t.name == n
      · rfl
      · exact absurd ((any_name_iff n P).mp hh) h
    rw [if_neg h]
    simp only [appendTypesToPackage, hany, Bool.false_eq_true, if_false, namesOf]
    rw [List.map_append, hmap]
    rfl

theorem mem_namesOf_appendTypesToPackage (n a : String) (ms : List String) (P : Package) :
    a ∈ namesOf (appendTypesToPackage n ms P) ↔ a ∈ namesOf P ∨ a = n := by
  rw [namesOf_appendTypesToPackage]
  by_cases h : n ∈ namesOf P
  · rw [if_pos h]
    constructor
    · exact Or.inl
    · rintro (ha | rfl)
      · exact ha
      · exact h
  · rw [if_neg h]
    simp [List.mem_append]

theorem nodup_namesOf_appendTypesToPackage (n : String) (ms : List String) (P : Package)
    (h : (namesOf P).Nodup) : (namesOf (appendTypesToPackage n ms P)).Nodup := by
  rw [namesOf_appendTypesToPackage]
  by_cases hn : n ∈ namesOf P
  · rwa [if_pos hn]
  · rw [if_neg hn]
    simp [List.nodup_append, h, hn]

theorem membersNodup_appendTypesToPackage (n : String) (ms : List String) (P : Package)
    (h : ∀ t ∈ P.types, t.members.Nodup) :
    ∀ t ∈ (appendTypesToPackage n ms P).types, t.members.Nodup := by
  intro t ht
  simp only [appendTypesToPackage] at ht
  have hmap : ∀ u ∈ P.types.map (fun thisType =>
      if thisType.name == n then
        { thisType with members := getUnique (thisType.members ++ ms) }
      else thisType), u.members.Nodup := by
    intro u hu
    rcases List.mem_map.mp hu with ⟨t', ht', rfl⟩
    split
    · exact nodup_getUnique _
    · exact h t' ht'
  split at ht
  · exact hmap t ht
  · rcases List.mem_append.mp ht with hl | hr
    · exact hmap t hl
    · rw [List.mem_singleton.mp hr]
      exact nodup_getUnique _

theorem comp_update_pred (a n : String) (ms : List String) :
    ((fun t : PackageType => t.name == a) ∘ (fun thisType =>
      if thisType.name == n then { thisType with members := getUnique (thisType.members ++ ms) }
      else thisType)) = (fun t : PackageType => t.name == a) := by
  funext t
  simp only [Function.comp_apply]
  rw [name_updateFun]

theorem findGroup_appendTypesToPackage_self (n : String) (ms : List String) (P : Package) :
    findGroup n (appendTypesToPackage n ms P) =
      some { name := n, members := getUnique (groupMembersD n P ++ ms) } := by
  cases hf : P.types.find? (fun t => t.name == n) with
  | some t₀ =>
    have hbeq : (t₀.name == n) = true := by
      have h' := List.find?_some hf
      exact h'
    have hmem := List.mem_of_find?_eq_some hf
    have hany : (P.types.any fun t => t.name == n) = true :=
      List.any_eq_true.mpr ⟨t₀, hmem, hbeq⟩
    have hD : groupMembersD n P = t₀.members := by
      simp [groupMembersD, findGroup, hf]
    simp only [findGroup, appendTypesToPackage, hany, if_true]
    rw [List.find?_map, comp_update_pred n n ms, hf, hD]
    simp only [Option.map_some']
    rw [if_pos hbeq]
    have hname : t₀.name = n := beq_iff_eq.mp hbeq
    cases t₀
    simp only at hname
    subst hname
    rfl
  | none =>
    have hall := List.find?_eq_none.mp hf
    have hany : (P.types.any fun t => t.name == n) = false := by
      cases hh : P.types.any fun t => t.name == n
      · rfl
      · rcases List.any_eq_true.mp hh with ⟨t, ht, hbeq⟩
        exact absurd hbeq (hall t ht)
    have hD : groupMembersD n P = [] := by
      simp [groupMembersD, findGroup, hf]
    simp only [findGroup, appendTypesToPackage, hany, Bool.false_eq_true, if_false]
    rw [List.find?_append, List.find?_map, comp_update_pred n n ms, hf, hD]
    simp only [Option.map_none', Option.none_or]
    rw [List.find?_cons_of_pos _ (by simp), List.nil_append]

theorem findGroup_appendTypesToPackage_other (a n : String) (ms : List String) (P : Package)
    (h : a ≠ n) :
    findGroup a (appendTypesToPackage n ms P) = findGroup a P := by
  have hmap : (P.types.map (fun thisType =>
      if thisType.name == n then { thisType with members := getUnique (thisType.members ++ ms) }
      else thisType)).find? (fun t => t.name == a) = P.types.find? (fun t => t.name == a) := by
    rw [List.find?_map, comp_update_pred a n ms]
    cases hf : P.types.find? (fun t => t.name == a) with
    | some t₀ =>
      have hbeq : (t₀.name == a) = true := by
        have h' := List.find?_some hf
        exact h'
      have hne : (t₀.name == n) = false := by
        rw [beq_eq_false_iff_ne]
        rw [beq_iff_eq] at hbeq
        rw [hbeq]
        exact h
      simp only [Option.map_some']
      rw [if_neg (by simp [hne])]
    | none => rfl
  cases hany : P.types.any fun t => t.name == n with
  | true =>
    simp only [findGroup, appendTypesToPackage, hany, if_true]
    exact hmap
  | false =>
    simp only [findGroup, appendTypesToPackage, hany, Bool.false_eq_true, if_false]
    rw [List.find?_append, hmap]
    have hnew : (({ name := n, members := getUnique ms } : PackageType).name == a) = false := by
      rw [beq_eq_false_iff_ne]
      exact fun he => h he.symm
    rw [List.find?_cons_of_neg _ (by simp_all), List.find?_nil, Option.or_none]

theorem mem_groupMembersD_appendTypesToPackage (a n x : String) (ms : List String) (P : Package) :
    x ∈ groupMembersD a (appendTypesToPackage n ms P)
      ↔ x ∈ groupMembersD a P ∨ (a = n ∧ x ∈ ms) := by
  by_cases h : a = n
  · subst h
    rw [groupMembersD, findGroup_appendTypesToPackage_self]
    simp only [Option.getD_some]
    rw [mem_getUnique]
    simp [List.mem_append]
  · rw [groupMembersD, findGroup_appendTypesToPackage_other a n ms P h]
    simp [groupMembersD, h]

theorem find?_name_eq_some_of_nodup :
    ∀ ts : List PackageType, (ts.map (·.name)).Nodup → ∀ t ∈ ts,
      ts.find? (fun u => u.name == t.name) = some t := by
  intro ts
  induction ts with
  | nil => simp
  | cons a ts ih =>
    intro hn t ht
    rcases List.mem_cons.mp ht with rfl | ht'
    · exact List.find?_cons_of_pos _ (by simp)
    · have hchain : a.name ∉ ts.map (·.name) ∧ (ts.map (·.name)).Nodup := by
        rw [List.map_cons] at hn
        exact List.nodup_cons.mp hn
      have hne : (a.name == t.name) = false := by
        rw [beq_eq_false_iff_ne]
        intro he
        exact hchain.1 (he ▸ List.mem_map.mpr ⟨t, ht', rfl⟩)
      rw [List.find?_cons_of_neg _ (by simp_all)]
      exact ih hchain.2 t ht'

theorem groupMembersD_of_mem (P : Package) (t : PackageType)
    (hn : (namesOf P).Nodup) (ht : t ∈ P.types) : groupMembersD t.name P = t.members := by
  rw [groupMembersD, findGroup, find?_name_eq_some_of_nodup P.types hn t ht]
  rfl

/-! ## Lemmas about the merge fold -/

theorem foldPairs_nil (P : Package) : foldPairs P [] = P := rfl

theorem foldPairs_cons (P : Package) (pr : String × List String)
    (ps : List (String × List String)) :
    foldPairs P (pr :: ps) = foldPairs (appendTypesToPackage pr.fst pr.snd P) ps := rfl

theorem version_foldPairs (ps : List (String × List String)) :
    ∀ P : Package, (foldPairs P ps).version = P.version := by
  induction ps with
  | nil => intro P; rfl
  | cons pr ps ih =>
    intro P
    rw [foldPairs_cons, ih, version_appendTypesToPackage]

theorem mem_namesOf_foldPairs (ps : List (String × List String)) :
    ∀ (P : Package) (a : String),
      a ∈ namesOf (foldPairs P ps) ↔ a ∈ namesOf P ∨ ∃ pr ∈ ps, pr.fst = a := by
  induction ps with
  | nil => intro P a; simp [foldPairs_nil]
  | cons pr ps ih =>
    intro P a
    rw [foldPairs_cons, ih, mem_namesOf_appendTypesToPackage]
    simp only [List.mem_cons]
    constructor
    · rintro ((h | rfl) | h)
      · exact Or.inl h
      · exact Or.inr ⟨pr, Or.inl rfl, rfl⟩
      · rcases h with ⟨q, hq, rfl⟩
        exact Or.inr ⟨q, Or.inr hq, rfl⟩
    · rintro (h | ⟨q, hq | hq, rfl⟩)
      · exact Or.inl (Or.inl h)
      · exact Or.inl (Or.inr (by rw [hq]))
      · exact Or.inr ⟨q, hq, rfl⟩

theorem nodup_namesOf_foldPairs (ps : List (String × List String)) :
    ∀ P : Package, (namesOf P).Nodup → (namesOf (foldPairs P ps)).Nodup := by
  induction ps with
  | nil => intro P h; exact h
  | cons pr ps ih =>
    intro P h
    rw [foldPairs_cons]
    exact ih _ (nodup_namesOf_appendTypesToPackage pr.fst pr.snd P h)

theorem membersNodup_foldPairs (ps : List (String × List String)) :
    ∀ P : Package, (∀ t ∈ P.types, t.members.Nodup) →
      ∀ t ∈ (foldPairs P ps).types, t.members.Nodup := by
  induction ps with
  | nil => intro P h; exact h
  | cons pr ps ih =>
    intro P h
    rw [foldPairs_cons]
    exact ih _ (membersNodup_appendTypesToPackage pr.fst pr.snd P h)

theorem mem_groupMembersD_foldPairs (ps : List (String × List String)) :
    ∀ (P : Package) (n x : String),
      x ∈ groupMembersD n (foldPairs P ps)
        ↔ x ∈ groupMembersD n P ∨ ∃ pr ∈ ps, pr.fst = n ∧ x ∈ pr.snd := by
  induction ps with
  | nil => intro P n x; simp [foldPairs_nil]
  | cons pr ps ih =>
    intro P n x
    rw [foldPairs_cons, ih, mem_groupMembersD_appendTypesToPackage]
    simp only [List.mem_cons]
    constructor
    · rintro ((h | ⟨rfl, hx⟩) | h)
      · exact Or.inl h
      · exact Or.inr ⟨pr, Or.inl rfl, rfl, hx⟩
      · rcases h with ⟨q, hq, hqn, hx⟩
        exact Or.inr ⟨q, Or.inr hq, hqn, hx⟩
    · rintro (h | ⟨q, hq | hq, hqn, hx⟩)
      · exact Or.inl (Or.inl h)
      · exact Or.inl (Or.inr ⟨by rw [hq] at hqn; exact hqn.symm, by rw [hq] at hx; exact hx⟩)
      · exact Or.inr ⟨q, hq, hqn, hx⟩

theorem foldPairs_append (P : Package) (l₁ l₂ : List (String × List String)) :
    foldPairs P (l₁ ++ l₂) = foldPairs (foldPairs P l₁) l₂ := by
  simp only [foldPairs, List.foldl_append]

theorem processFile_eq_foldPairs (P : Package) (f : ParsedFile) :
    processFile P f = foldPairs P (filePairs f) := by
  cases f with
  | nullFile => rfl
  | noPackage => rfl
  | withPackage p =>
    cases hts : p.types with
    | none => simp [processFile, filePairs, foldPairs, hts]
    | some ts =>
      simp only [processFile, filePairs, hts, foldPairs]
      rw [List.foldl_map]

theorem mergeObjects_cons (P : Package) (f : ParsedFile) (fs : List ParsedFile) :
    mergeObjects (f :: fs) P = mergeObjects fs (processFile P f) := rfl

theorem mergeObjects_eq_foldPairs (files : List ParsedFile) :
    ∀ P : Package, mergeObjects files P = foldPairs P (files.map filePairs).flatten := by
  induction files with
  | nil => intro P; rfl
  | cons f fs ih =>
    intro P
    rw [mergeObjects_cons, ih, List.map_cons, List.flatten_cons, foldPairs_append,
      ← processFile_eq_foldPairs]

/-! ## Lemmas about normalization -/

theorem name_sortMembers (t : PackageType) : (sortMembers t).name = t.name := rfl

theorem members_sortMembers (t : PackageType) :
    (sortMembers t).members = List.insertionSort strLe t.members := rfl

theorem version_normalize (P : Package) : (normalize P).version = P.version := rfl

theorem types_normalize (P : Package) :
    (normalize P).types = List.insertionSort nameLe (P.types.map sortMembers) := rfl

theorem namesOf_sortValues (P : Package) : namesOf (sortValues P) = namesOf P := by
  simp only [namesOf, sortValues, List.map_map]
  exact List.map_congr_left (fun t _ => rfl)

theorem sorted_types_normalize (P : Package) : ((normalize P).types).Sorted nameLe := by
  rw [types_normalize]
  exact List.sorted_insertionSort nameLe _

theorem types_normalize_perm (P : Package) :
    List.Perm (normalize P).types (P.types.map sortMembers) := by
  rw [types_normalize]
  exact List.perm_insertionSort nameLe _

theorem comp_name_sortMembers :
    ((fun t : PackageType => t.name) ∘ sortMembers) = fun t : PackageType => t.name :=
  funext fun _ => rfl

theorem namesOf_map_sortMembers (ts : List PackageType) :
    (ts.map sortMembers).map (fun t : PackageType => t.name)
      = ts.map (fun t : PackageType => t.name) := by
  rw [List.map_map, comp_name_sortMembers]

theorem nodup_types_map_sortMembers (P : Package) (h : (namesOf P).Nodup) :
    (P.types.map sortMembers).Nodup := by
  have h1 : ((P.types.map sortMembers).map (fun t : PackageType => t.name)).Nodup := by
    rw [namesOf_map_sortMembers]
    exact h
  exact List.Nodup.of_map _ h1

theorem nodup_namesOf_normalize (P : Package) (h : (namesOf P).Nodup) :
    (namesOf (normalize P)).Nodup := by
  have hperm := (types_normalize_perm P).map (fun t : PackageType => t.name)
  have h' : ((P.types.map sortMembers).map (fun t : PackageType => t.name)).Nodup := by
    rw [namesOf_map_sortMembers]
    exact h
  exact hperm.nodup_iff.mpr h'

theorem eq_of_perm_of_sorted_names :
    ∀ {l₁ l₂ : List PackageType}, List.Perm l₁ l₂ →
      l₁.Sorted nameLe → l₂.Sorted nameLe → (l₁.map (·.name)).Nodup → l₁ = l₂ := by
  intro l₁
  induction l₁ with
  | nil =>
    intro l₂ hp _ _ _
    exact (hp.symm.eq_nil).symm
  | cons a t₁ ih =>
    intro l₂ hp hs₁ hs₂ hn
    cases l₂ with
    | nil => exact absurd hp.eq_nil (by simp)
    | cons b t₂ =>
      have hnodup := by
        rw [List.map_cons] at hn
        exact List.nodup_cons.mp hn
      have hab : a = b := by
        have ha : a ∈ b :: t₂ := hp.mem_iff.mp (List.mem_cons_self a t₁)
        have hb : b ∈ a :: t₁ := hp.mem_iff.mpr (List.mem_cons_self b t₂)
        rcases List.mem_cons.mp ha with h | ha'
        · exact h
        rcases List.mem_cons.mp hb with h | hb'
        · exact h.symm
        have h₁ : nameLe a b := List.rel_of_sorted_cons hs₁ b hb'
        have h₂ : nameLe b a := List.rel_of_sorted_cons hs₂ a ha'
        have hname : a.name = b.name := antisymm h₁ h₂
        exact absurd (hname ▸ List.mem_map.mpr ⟨b, hb', rfl⟩) hnodup.1
      subst hab
      rw [ih hp.cons_inv hs₁.of_cons hs₂.of_cons hnodup.2]

theorem normalize_eq_of_content (P₁ P₂ : Package)
    (hv : P₁.version = P₂.version)
    (hn₁ : (namesOf P₁).Nodup) (hn₂ : (namesOf P₂).Nodup)
    (hm₁ : ∀ t ∈ P₁.types, t.members.Nodup) (hm₂ : ∀ t ∈ P₂.types, t.members.Nodup)
    (hnames : ∀ a, a ∈ namesOf P₁ ↔ a ∈ namesOf P₂)
    (hmembers : ∀ n x, x ∈ groupMembersD n P₁ ↔ x ∈ groupMembersD n P₂) :
    normalize P₁ = normalize P₂ := by
  have key : ∀ Q₁ Q₂ : Package, (namesOf Q₁).Nodup → (namesOf Q₂).Nodup →
      (∀ t ∈ Q₁.types, t.members.Nodup) → (∀ t ∈ Q₂.types, t.members.Nodup) →
      (∀ a, a ∈ namesOf Q₁ ↔ a ∈ namesOf Q₂) →
      (∀ n x, x ∈ groupMembersD n Q₁ ↔ x ∈ groupMembersD n Q₂) →
      ∀ t ∈ Q₁.types.map sortMembers, t ∈ Q₂.types.map sortMembers := by
    intro Q₁ Q₂ hn₁ hn₂ hm₁ hm₂ hnames hmembers t ht
    rcases List.mem_map.mp ht with ⟨t₁, ht₁, rfl⟩
    have hname₁ : t₁.name ∈ namesOf Q₂ :=
      (hnames t₁.name).mp (List.mem_map.mpr ⟨t₁, ht₁, rfl⟩)
    rcases List.mem_map.mp hname₁ with ⟨t₂, ht₂, hname₂⟩
    have hmemperm : List.Perm t₁.members t₂.members := by
      rw [List.perm_ext_iff_of_nodup (hm₁ t₁ ht₁) (hm₂ t₂ ht₂)]
      intro x
      rw [← groupMembersD_of_mem Q₁ t₁ hn₁ ht₁, ← groupMembersD_of_mem Q₂ t₂ hn₂ ht₂,
        hname₂, hmembers]
    have hsorteq : List.insertionSort strLe t₁.members = List.insertionSort strLe t₂.members :=
      List.eq_of_perm_of_sorted
        (((List.perm_insertionSort strLe t₁.members).trans hmemperm).trans
          (List.perm_insertionSort strLe t₂.members).symm)
        (List.sorted_insertionSort strLe t₁.members)
        (List.sorted_insertionSort strLe t₂.members)
    have : sortMembers t₁ = sortMembers t₂ := by
      cases t₁; cases t₂
      simp only at hname₂
      simp only [sortMembers, members_sortMembers] at hsorteq ⊢
      simp_all
    rw [this]
    exact List.mem_map.mpr ⟨t₂, ht₂, rfl⟩
  have hperm : List.Perm (P₁.types.map sortMembers) (P₂.types.map sortMembers) := by
    rw [List.perm_ext_iff_of_nodup]
    · intro t
      exact ⟨key P₁ P₂ hn₁ hn₂ hm₁ hm₂ hnames hmembers t,
        key P₂ P₁ hn₂ hn₁ hm₂ hm₁ (fun a => (hnames a).symm)
          (fun n x => (hmembers n x).symm) t⟩
    · exact nodup_types_map_sortMembers P₁ hn₁
    · exact nodup_types_map_sortMembers P₂ hn₂
  have htypes : (normalize P₁).types = (normalize P₂).types := by
    refine eq_of_perm_of_sorted_names ?_ (sorted_types_normalize P₁)
      (sorted_types_normalize P₂) ?_
    · exact ((types_normalize_perm P₁).trans hperm).trans (types_normalize_perm P₂).symm
    · have := nodup_namesOf_normalize P₁ hn₁
      exact this
  cases hP₁ : normalize P₁
  cases hP₂ : normalize P₂
  have h₁ := version_normalize P₁
  have h₂ := version_normalize P₂
  rw [hP₁] at h₁
  rw [hP₂] at h₂
  rw [hP₁, hP₂] at htypes
  simp only at h₁ h₂ htypes
  simp [htypes, h₁, h₂, hv]

/-! ## Idempotence of normalization -/

theorem package_eq_of (P Q : Package) (hv : P.version = Q.version)
    (ht : P.types = Q.types) : P = Q := by
  cases P; cases Q
  simp_all

theorem sortMembers_idem (t : PackageType) : sortMembers (sortMembers t) = sortMembers t := by
  simp only [sortMembers]
  rw [(List.sorted_insertionSort strLe t.members).insertionSort_eq]

theorem map_sortMembers_insertionSort (ts : List PackageType) :
    (List.insertionSort nameLe ts).map sortMembers
      = List.insertionSort nameLe (ts.map sortMembers) :=
  List.map_insertionSort nameLe nameLe sortMembers ts (fun _ _ _ _ => Iff.rfl)

theorem sortTypesByName_idem_types (ts : List PackageType) :
    List.insertionSort nameLe (List.insertionSort nameLe ts) = List.insertionSort nameLe ts :=
  (List.sorted_insertionSort nameLe ts).insertionSort_eq

theorem map_sortMembers_idem (ts : List PackageType) :
    (ts.map sortMembers).map sortMembers = ts.map sortMembers := by
  rw [List.map_map]
  exact List.map_congr_left (fun t _ => sortMembers_idem t)

theorem normalize_idem (P : Package) : normalize (normalize P) = normalize P := by
  apply package_eq_of
  · rfl
  · rw [types_normalize, types_normalize]
    rw [map_sortMembers_insertionSort, map_sortMembers_idem, sortTypesByName_idem_types]

theorem sortMembers_eq_of_groupEquiv (a b : PackageType) (h : GroupEquiv a b) :
    sortMembers a = sortMembers b := by
  rcases h with ⟨hname, hperm⟩
  have hsort : List.insertionSort strLe a.members = List.insertionSort strLe b.members :=
    List.eq_of_perm_of_sorted
      (((List.perm_insertionSort strLe a.members).trans hperm).trans
        (List.perm_insertionSort strLe b.members).symm)
      (List.sorted_insertionSort strLe a.members)
      (List.sorted_insertionSort strLe b.members)
  cases a; cases b
  simp only at hname
  simp only [sortMembers] at hsort ⊢
  simp_all

/-! ## Round trip of the emitted markup -/

theorem leafText_leaf (tag tg s : String) :
    leafText tag (.elem tg [.text s]) = if tg = tag then some s else none := rfl

theorem leafText_buildTypeNode (tag : String) (t : PackageType) :
    leafText tag (buildTypeNode t) = none := rfl

theorem filterMap_leafText_buildTypeNodes (tag : String) (ts : List PackageType) :
    (ts.map buildTypeNode).filterMap (leafText tag) = [] := by
  induction ts with
  | nil => rfl
  | cons t ts ih =>
    simp only [List.map_cons, List.filterMap_cons, leafText_buildTypeNode]
    exact ih

theorem filterMap_leafText_memberNodes (tag : String) (ms : List String)
    (h : ¬ ("members" = tag)) :
    (ms.map (fun m => XmlNode.elem "members" [XmlNode.text m])).filterMap (leafText tag)
      = [] := by
  induction ms with
  | nil => rfl
  | cons m ms ih =>
    simp only [List.map_cons, List.filterMap_cons, leafText_leaf, if_neg h]
    exact ih

theorem leafText_members_self (m : String) :
    leafText "members" (.elem "members" [.text m]) = some m := rfl

theorem leafText_name_self (n : String) :
    leafText "name" (.elem "name" [.text n]) = some n := rfl

theorem leafText_version_self (v : String) :
    leafText "version" (.elem "version" [.text v]) = some v := rfl

theorem filterMap_leafText_memberNodes_members (ms : List String) :
    (ms.map (fun m => XmlNode.elem "members" [XmlNode.text m])).filterMap (leafText "members")
      = ms := by
  induction ms with
  | nil => rfl
  | cons m ms ih =>
    simp only [List.map_cons, List.filterMap_cons, leafText_members_self]
    exact congrArg (List.cons m) ih

theorem collectOpt_name_typeChildren (t : PackageType) :
    collectOpt "name" (XmlNode.elem "name" [XmlNode.text t.name] ::
      t.members.map (fun m => XmlNode.elem "members" [XmlNode.text m])) = some [t.name] := by
  have h1 : childElemTexts "name" (XmlNode.elem "name" [XmlNode.text t.name] ::
      t.members.map (fun m => XmlNode.elem "members" [XmlNode.text m])) = [t.name] := by
    simp only [childElemTexts, List.filterMap_cons, leafText_name_self]
    rw [filterMap_leafText_memberNodes "name" t.members (by decide)]
  simp only [collectOpt, h1]

theorem collectOpt_members_typeChildren (t : PackageType) (h : t.members ≠ []) :
    collectOpt "members" (XmlNode.elem "name" [XmlNode.text t.name] ::
      t.members.map (fun m => XmlNode.elem "members" [XmlNode.text m])) = some t.members := by
  have h1 : childElemTexts "members" (XmlNode.elem "name" [XmlNode.text t.name] ::
      t.members.map (fun m => XmlNode.elem "members" [XmlNode.text m])) = t.members := by
    simp only [childElemTexts, List.filterMap_cons, leafText_leaf,
      if_neg (by decide : ¬ ("name" = "members"))]
    exact filterMap_leafText_memberNodes_members t.members
  rw [collectOpt, h1]
  cases hms : t.members with
  | nil => exact absurd hms h
  | cons m ms => rfl

theorem typeNodeRaw_buildTypeNode (t : PackageType) (h : t.members ≠ []) :
    typeNodeRaw (buildTypeNode t)
      = some { name := some [t.name], members := some t.members } := by
  simp only [buildTypeNode, typeNodeRaw]
  rw [collectOpt_name_typeChildren, collectOpt_members_typeChildren t h]

theorem filterMap_typeNodeRaw_buildTypeNodes :
    ∀ ts : List PackageType, (∀ t ∈ ts, t.members ≠ []) →
      (ts.map buildTypeNode).filterMap typeNodeRaw
        = ts.map (fun t => ({ name := some [t.name], members := some t.members } : RawType)) := by
  intro ts
  induction ts with
  | nil => intro _; rfl
  | cons t ts ih =>
    intro h
    simp only [List.map_cons, List.filterMap_cons,
      typeNodeRaw_buildTypeNode t (h t (List.mem_cons_self t ts))]
    rw [ih (fun u hu => h u (List.mem_cons_of_mem t hu))]

theorem parse_buildObject (P : Package) (hne : P.types ≠ [])
    (hm : ∀ t ∈ P.types, t.members ≠ []) :
    parsePackageMarkup (buildObject P) = some {
      version := some [P.version],
      types := some (P.types.map
        (fun t => ({ name := some [t.name], members := some t.members } : RawType))) } := by
  have hv : collectOpt "version"
      (XmlNode.elem "version" [XmlNode.text P.version] :: P.types.map buildTypeNode)
        = some [P.version] := by
    have h1 : childElemTexts "version"
        (XmlNode.elem "version" [XmlNode.text P.version] :: P.types.map buildTypeNode)
          = [P.version] := by
      simp only [childElemTexts, List.filterMap_cons, leafText_version_self]
      rw [filterMap_leafText_buildTypeNodes "version" P.types]
    simp only [collectOpt, h1]
  have ht : collectTypes
      (XmlNode.elem "version" [XmlNode.text P.version] :: P.types.map buildTypeNode)
        = some (P.types.map
          (fun t => ({ name := some [t.name], members := some t.members } : RawType))) := by
    have h2 : (XmlNode.elem "version" [XmlNode.text P.version] ::
        P.types.map buildTypeNode).filterMap typeNodeRaw
          = P.types.map
            (fun t => ({ name := some [t.name], members := some t.members } : RawType)) := by
      simp only [List.filterMap_cons]
      rw [show typeNodeRaw (XmlNode.elem "version" [XmlNode.text P.version]) = none from rfl]
      exact filterMap_typeNodeRaw_buildTypeNodes P.types hm
    rw [collectTypes, h2]
    cases hts : P.types with
    | nil => exact absurd hts hne
    | cons t ts => rfl
  simp only [buildObject, parsePackageMarkup]
  rw [hv, ht]

theorem mapM_rawTypeToPackageType (ts : List PackageType) :
    (ts.map (fun t => ({ name := some [t.name], members := some t.members } : RawType))).mapM
      rawTypeToPackageType = some ts := by
  induction ts with
  | nil => rfl
  | cons t ts ih =>
    simp only [List.map_cons, List.mapM_cons, ih]
    rfl

theorem emitParsedManifest_exact (P : Package) (hne : P.types ≠ [])
    (hm : ∀ t ∈ P.types, t.members ≠ []) :
    emitParsedManifest P = some P := by
  simp only [emitParsedManifest, parse_buildObject P hne hm]
  simp only [rawToPackage, mapM_rawTypeToPackageType]

theorem types_normalize_ne_nil (P : Package) (h : P.types ≠ []) :
    (normalize P).types ≠ [] := by
  have hlen : (normalize P).types.length = P.types.length := by
    rw [(types_normalize_perm P).length_eq, List.length_map]
  intro hnil
  rw [hnil] at hlen
  exact h (List.eq_nil_of_length_eq_zero hlen.symm)

theorem members_normalize_ne_nil (P : Package) (hm : ∀ t ∈ P.types, t.members ≠ []) :
    ∀ t ∈ (normalize P).types, t.members ≠ [] := by
  intro t ht
  have hmem : t ∈ P.types.map sortMembers := (types_normalize_perm P).mem_iff.mp ht
  rcases List.mem_map.mp hmem with ⟨t₁, ht₁, rfl⟩
  intro hnil
  rw [members_sortMembers] at hnil
  have hlen := (List.perm_insertionSort strLe t₁.members).length_eq
  rw [hnil] at hlen
  exact hm t₁ ht₁ (List.eq_nil_of_length_eq_zero hlen.symm)

/-! ## Lemmas about `jsonToCSV` -/

theorem foldl_append_strings :
    ∀ (L : List String) (init : String), L.foldl (fun a b => a ++ b) init = init ++ String.join L := by
  intro L
  induction L with
  | nil => intro init; rw [List.foldl_nil]; exact (String.append_empty init).symm
  | cons s L ih =>
    intro init
    rw [List.foldl_cons, ih]
    have hjoin : String.join (s :: L) = s ++ String.join L := by
      show (s :: L).foldl (fun a b => a ++ b) "" = s ++ String.join L
      rw [List.foldl_cons, ih, String.empty_append]
    rw [hjoin, String.append_assoc]

theorem foldl_append_of (f : Nat → String) :
    ∀ (l : List Nat) (init : String),
      l.foldl (fun s x => s ++ f x) init = init ++ String.join (l.map f) := by
  intro l
  induction l with
  | nil => intro init; rw [List.foldl_nil]; exact (String.append_empty init).symm
  | cons a l ih =>
    intro init
    rw [List.foldl_cons, ih, List.map_cons]
    have hjoin : String.join (f a :: l.map f) = f a ++ String.join (l.map f) := by
      show (f a :: l.map f).foldl (fun a b => a ++ b) "" = f a ++ String.join (l.map f)
      rw [List.foldl_cons, foldl_append_strings, String.empty_append]
    rw [hjoin, String.append_assoc]

theorem jsonToCSV_eq_join (pkg : Package) :
    jsonToCSV pkg = csvHeader pkg.types ++ "\r\n" ++ String.join (csvDataRows pkg) := by
  rw [jsonToCSV, foldl_append_of, String.empty_append, csvDataRows]

theorem length_csvDataRows (pkg : Package) :
    (csvDataRows pkg).length = rowLimit pkg.types := by
  rw [csvDataRows, List.length_map, List.length_range]

theorem rowLimitAux :
    ∀ (ts : List PackageType) (a : Nat),
      ts.foldl (fun limit t => if t.members.length > limit then t.members.length else limit) a
        = max a ((ts.map (fun t => t.members.length)).foldr max 0) := by
  intro ts
  induction ts with
  | nil => intro a; simp
  | cons t ts ih =>
    intro a
    rw [List.foldl_cons, ih, List.map_cons, List.foldr_cons]
    have hmax : (if t.members.length > a then t.members.length else a)
        = max a t.members.length := by
      by_cases h : t.members.length > a
      · rw [if_pos h]
        exact (Nat.max_eq_right (le_of_lt h)).symm
      · rw [if_neg h]
        exact (Nat.max_eq_left (Nat.le_of_not_lt h)).symm
    rw [hmax, Nat.max_assoc]

theorem rowLimit_eq_max (ts : List PackageType) :
    rowLimit ts = (ts.map (fun t => t.members.length)).foldr max 0 := by
  rw [rowLimit, rowLimitAux]
  simp

theorem csvCell_of_nonempty (members : List String) (i : Nat)
    (h : ∀ m ∈ members, m ≠ "") :
    csvCell members i =
      if i < members.length then members.getD i "" ++ "," else "\"\"," := by
  rw [csvCell]
  cases hg : members.get? i with
  | some m =>
    have hi : i < members.length := (List.get?_eq_some.mp hg).1
    have hm : m ∈ members := List.get?_mem hg
    have hgd : members.getD i "" = m := by
      rw [List.getD_eq_getElem?_getD, ← List.get?_eq_getElem?, hg]
      rfl
    show (if m = "" then "\"\"," else m ++ ",") = _
    rw [if_neg (h m hm), if_pos hi, hgd]
  | none =>
    have hi : ¬ i < members.length := by
      rw [not_lt]
      exact List.get?_eq_none.mp hg
    show ("\"\"," : String) = _
    rw [if_neg hi]

theorem foldl_append_congr {α : Type} (f g : α → String) :
    ∀ (l : List α) (init : String), (∀ x ∈ l, f x = g x) →
      l.foldl (fun s x => s ++ f x) init = l.foldl (fun s x => s ++ g x) init := by
  intro l
  induction l with
  | nil => intro init _; rfl
  | cons a l ih =>
    intro init h
    rw [List.foldl_cons, List.foldl_cons, h a (List.mem_cons_self a l),
      ih _ (fun x hx => h x (List.mem_cons_of_mem a hx))]

theorem csvRow_of_nonempty (pkg : Package) (i : Nat)
    (h : ∀ t ∈ pkg.types, ∀ m ∈ t.members, m ≠ "") :
    csvRow (pkg.types.map (fun t => t.members)) i =
      (pkg.types.foldl (fun row t =>
        row ++ if i < t.members.length then t.members.getD i "" ++ "," else "\"\",") "")
        ++ "\r\n" := by
  rw [csvRow, List.foldl_map]
  congr 1
  exact foldl_append_congr _ _ pkg.types ""
    (fun t ht => csvCell_of_nonempty t.members i (h t ht))

theorem csvDataRows_getD (pkg : Package) (i : Nat) (h : i < rowLimit pkg.types) :
    (csvDataRows pkg).getD i "" = csvRow (pkg.types.map (fun t => t.members)) i := by
  rw [csvDataRows, List.getD_eq_getElem?_getD, List.getElem?_map, List.getElem?_range h]
  rfl

/-! ## Malformed files contribute nothing -/

theorem processFile_malformed (acc : Package) (f : ParsedFile)
    (h : hasTypesCollection f = false) : processFile acc f = acc := by
  cases f with
  | nullFile => rfl
  | noPackage => rfl
  | withPackage p =>
    cases hts : p.types with
    | none => simp [processFile, hts]
    | some ts => simp [hasTypesCollection, hts] at h

theorem mergeObjects_skip_malformed (acc : Package) (xs ys : List ParsedFile) (f : ParsedFile)
    (h : hasTypesCollection f = false) :
    mergeObjects (xs ++ f :: ys) acc = mergeObjects (xs ++ ys) acc := by
  rw [mergeObjects, mergeObjects, List.foldl_append, List.foldl_append, List.foldl_cons,
    processFile_malformed _ f h]

theorem mem_enum_append (xs ys : List ParsedFile) (f : ParsedFile) :
    (xs.length, f) ∈ (xs ++ f :: ys).enum := by
  rw [List.mk_mem_enum_iff_getElem?]
  rw [List.getElem?_append_right (le_refl xs.length)]
  simp

theorem malformedIndices_mem (xs ys : List ParsedFile) (f : ParsedFile)
    (h : hasTypesCollection f = false) :
    xs.length ∈ malformedIndices (xs ++ f :: ys) := by
  rw [malformedIndices]
  apply List.mem_map.mpr
  refine ⟨(xs.length, f), ?_, rfl⟩
  rw [List.mem_filter]
  exact ⟨mem_enum_append xs ys f, by simp [h]⟩

/-! ## Permutation transport for the merge fold -/

theorem mem_flatten_filePairs (files : List ParsedFile) (pr : String × List String) :
    pr ∈ (files.map filePairs).flatten ↔ ∃ f ∈ files, pr ∈ filePairs f := by
  rw [List.mem_flatten]
  constructor
  · rintro ⟨l, hl, hpr⟩
    rcases List.mem_map.mp hl with ⟨f, hf, rfl⟩
    exact ⟨f, hf, hpr⟩
  · rintro ⟨f, hf, hpr⟩
    exact ⟨filePairs f, List.mem_map.mpr ⟨f, hf, rfl⟩, hpr⟩

theorem flatten_filePairs_mem_of_perm (files₁ files₂ : List ParsedFile)
    (hperm : List.Perm files₁ files₂) (pr : String × List String) :
    pr ∈ (files₁.map filePairs).flatten ↔ pr ∈ (files₂.map filePairs).flatten := by
  rw [mem_flatten_filePairs, mem_flatten_filePairs]
  constructor
  · rintro ⟨f, hf, hp⟩
    exact ⟨f, hperm.mem_iff.mp hf, hp⟩
  · rintro ⟨f, hf, hp⟩
    exact ⟨f, hperm.mem_iff.mpr hf, hp⟩

theorem namesOf_template_nil : namesOf createPackageXmlTemplate = [] := rfl

theorem groupMembersD_template (n : String) :
    groupMembersD n createPackageXmlTemplate = [] := rfl

/-! ## The claims -/

/-- C1: for every list of well-formed parsed manifests and every permutation
of that list, folding the manifests into the empty package template with
`mergeObjects` and then normalizing (sorting each group's members and sorting
groups by name) produces identical final content: the same set of group
names, each with the same sorted member list. -/
theorem merge_then_normalize_perm_invariant (files₁ files₂ : List ParsedFile)
    (hperm : List.Perm files₁ files₂)
    (hwf : ∀ f ∈ files₁, hasTypesCollection f = true) :
    normalize (mergeObjects files₁ createPackageXmlTemplate)
      = normalize (mergeObjects files₂ createPackageXmlTemplate) := by
  rw [mergeObjects_eq_foldPairs, mergeObjects_eq_foldPairs]
  apply normalize_eq_of_content
  · rw [version_foldPairs, version_foldPairs]
  · exact nodup_namesOf_foldPairs _ _ (by rw [namesOf_template_nil]; exact List.nodup_nil)
  · exact nodup_namesOf_foldPairs _ _ (by rw [namesOf_template_nil]; exact List.nodup_nil)
  · exact membersNodup_foldPairs _ _ (by intro t ht; simp [createPackageXmlTemplate] at ht)
  · exact membersNodup_foldPairs _ _ (by intro t ht; simp [createPackageXmlTemplate] at ht)
  · intro a
    rw [mem_namesOf_foldPairs, mem_namesOf_foldPairs]
    apply or_congr Iff.rfl
    constructor
    · rintro ⟨pr, hpr, hh⟩
      exact ⟨pr, (flatten_filePairs_mem_of_perm files₁ files₂ hperm pr).mp hpr, hh⟩
    · rintro ⟨pr, hpr, hh⟩
      exact ⟨pr, (flatten_filePairs_mem_of_perm files₁ files₂ hperm pr).mpr hpr, hh⟩
  · intro n x
    rw [mem_groupMembersD_foldPairs, mem_groupMembersD_foldPairs]
    apply or_congr Iff.rfl
    constructor
    · rintro ⟨pr, hpr, hh⟩
      exact ⟨pr, (flatten_filePairs_mem_of_perm files₁ files₂ hperm pr).mp hpr, hh⟩
    · rintro ⟨pr, hpr, hh⟩
      exact ⟨pr, (flatten_filePairs_mem_of_perm files₁ files₂ hperm pr).mpr hpr, hh⟩

/-- Witness for C1 at the spec's two-source scenario, in both orders. -/
theorem merge_then_normalize_perm_invariant_witness :
    (List.Perm [sampleFileA, sampleFileB] [sampleFileB, sampleFileA]
      ∧ ∀ f ∈ [sampleFileA, sampleFileB], hasTypesCollection f = true)
    ∧ normalize (mergeObjects [sampleFileA, sampleFileB] createPackageXmlTemplate)
        = normalize (mergeObjects [sampleFileB, sampleFileA] createPackageXmlTemplate) :=
  ⟨⟨List.Perm.swap _ _ _, by decide⟩,
   merge_then_normalize_perm_invariant _ _ (List.Perm.swap _ _ _) (by decide)⟩

/-- C2 counterexample: a group of the starting accumulator that no incoming
manifest touches is carried over as-is, so an accumulator group that already
holds a repeated member yields a merged package with a group with repeated
entries. -/
theorem merge_dedup_counterexample :
    ∃ t ∈ (mergeObjects [sampleFileB]
      { version := "48.0",
        types := [{ name := "CustomLabel", members := ["Foo", "Foo"] }] }).types,
      ¬ t.members.Nodup := by decide

/-- C2 (amended): for every accumulator package whose groups' members lists
have no repeated entries (in particular the empty template) and every
sequence of incoming manifests, each group in the package produced by
`mergeObjects` has a members list with no repeated entries, even when two
sources each contribute the same member to the same group. -/
theorem merge_dedup_of_nodup_accumulator (acc : Package) (files : List ParsedFile)
    (h : ∀ t ∈ acc.types, t.members.Nodup) :
    ∀ t ∈ (mergeObjects files acc).types, t.members.Nodup := by
  rw [mergeObjects_eq_foldPairs]
  exact membersNodup_foldPairs _ _ h

/-- Witness for C2: two sources both contribute the member Bar. -/
theorem merge_dedup_witness :
    (∀ t ∈ createPackageXmlTemplate.types, t.members.Nodup)
    ∧ ∀ t ∈ (mergeObjects [sampleFileA, sampleFileB] createPackageXmlTemplate).types,
        t.members.Nodup :=
  ⟨by decide, merge_dedup_of_nodup_accumulator createPackageXmlTemplate _ (by decide)⟩

/-- C3: starting from an accumulator with pairwise-distinct group names,
`appendTypesToPackage`, the `mergeObjects` fold and the subsequent
normalization all preserve distinctness of group names; a name match updates
in place (the name list is unchanged), and a new group is appended exactly
when no existing group carries the name. -/
theorem merge_unique_group_names_invariant (n : String) (ms : List String)
    (P : Package) (files : List ParsedFile) (h : (namesOf P).Nodup) :
    (namesOf (appendTypesToPackage n ms P)).Nodup
    ∧ (namesOf (mergeObjects files P)).Nodup
    ∧ (namesOf (normalize (mergeObjects files P))).Nodup
    ∧ (n ∈ namesOf P → namesOf (appendTypesToPackage n ms P) = namesOf P)
    ∧ (n ∉ namesOf P → namesOf (appendTypesToPackage n ms P) = namesOf P ++ [n]) := by
  refine ⟨nodup_namesOf_appendTypesToPackage n ms P h, ?_, ?_, ?_, ?_⟩
  · rw [mergeObjects_eq_foldPairs]
    exact nodup_namesOf_foldPairs _ _ h
  · rw [mergeObjects_eq_foldPairs]
    exact nodup_namesOf_normalize _ (nodup_namesOf_foldPairs _ _ h)
  · intro hn
    rw [namesOf_appendTypesToPackage, if_pos hn]
  · intro hn
    rw [namesOf_appendTypesToPackage, if_neg hn]

/-- Witness for C3 at the empty template. -/
theorem merge_unique_group_names_witness :
    (namesOf createPackageXmlTemplate).Nodup
    ∧ ((namesOf (appendTypesToPackage "ApexClass" ["Foo"] createPackageXmlTemplate)).Nodup
      ∧ (namesOf (mergeObjects [sampleFileA, sampleFileB] createPackageXmlTemplate)).Nodup
      ∧ (namesOf (normalize
          (mergeObjects [sampleFileA, sampleFileB] createPackageXmlTemplate))).Nodup
      ∧ ("ApexClass" ∈ namesOf createPackageXmlTemplate →
          namesOf (appendTypesToPackage "ApexClass" ["Foo"] createPackageXmlTemplate)
            = namesOf createPackageXmlTemplate)
      ∧ ("ApexClass" ∉ namesOf createPackageXmlTemplate →
          namesOf (appendTypesToPackage "ApexClass" ["Foo"] createPackageXmlTemplate)
            = namesOf createPackageXmlTemplate ++ ["ApexClass"])) :=
  ⟨by decide,
   merge_unique_group_names_invariant "ApexClass" ["Foo"] createPackageXmlTemplate
     [sampleFileA, sampleFileB] (by decide)⟩

/-- C4 counterexample: a group whose 0th member exists but is the empty
string is rendered as the quoted placeholder, although the group has at least
`0 + 1` members — so the placeholder does not appear *exactly when* the group
has fewer than `i + 1` members. -/
theorem jsonToCSV_counterexample :
    csvCell [""] 0 = "\"\","
    ∧ 0 < ([""] : List String).length
    ∧ jsonToCSV { version := "48.0", types := [{ name := "ApexClass", members := [""] }] }
        = "ApexClass,\r\n\"\",\r\n" := by
  refine ⟨by decide, by decide, by decide⟩

/-- C4 (amended): for every package all of whose members are non-empty
strings, the tabular encoding is the header row followed by exactly
max-member-count data rows, and row `i` holds, for each group in order, that
group's `i`-th member (with trailing delimiter) exactly when the group has at
least `i + 1` members, and the quoted placeholder otherwise. -/
theorem jsonToCSV_shape_of_nonempty_members (pkg : Package)
    (h : ∀ t ∈ pkg.types, ∀ m ∈ t.members, m ≠ "") :
    jsonToCSV pkg = csvHeader pkg.types ++ "\r\n" ++ String.join (csvDataRows pkg)
    ∧ (csvDataRows pkg).length = (pkg.types.map (fun t => t.members.length)).foldr max 0
    ∧ ∀ i < (csvDataRows pkg).length,
        (csvDataRows pkg).getD i "" =
          (pkg.types.foldl (fun row t =>
            row ++ if i < t.members.length then t.members.getD i "" ++ "," else "\"\",") "")
            ++ "\r\n" := by
  refine ⟨jsonToCSV_eq_join pkg, ?_, ?_⟩
  · rw [length_csvDataRows, rowLimit_eq_max]
  · intro i hi
    rw [length_csvDataRows] at hi
    rw [csvDataRows_getD pkg i hi, csvRow_of_nonempty pkg i h]

/-- Witness for C4 at a package with member counts 3 and 1. -/
theorem jsonToCSV_shape_witness :
    (∀ t ∈ csvSamplePackage.types, ∀ m ∈ t.members, m ≠ "")
    ∧ (jsonToCSV csvSamplePackage
        = csvHeader csvSamplePackage.types ++ "\r\n" ++ String.join (csvDataRows csvSamplePackage)
      ∧ (csvDataRows csvSamplePackage).length
          = (csvSamplePackage.types.map (fun t => t.members.length)).foldr max 0
      ∧ ∀ i < (csvDataRows csvSamplePackage).length,
          (csvDataRows csvSamplePackage).getD i "" =
            (csvSamplePackage.types.foldl (fun row t =>
              row ++ if i < t.members.length then t.members.getD i "" ++ "," else "\"\",") "")
              ++ "\r\n") :=
  ⟨by decide, jsonToCSV_shape_of_nonempty_members csvSamplePackage (by decide)⟩

theorem map_sortMembers_eq_of_forall₂ :
    ∀ {l₁ l₂ : List PackageType}, List.Forall₂ GroupEquiv l₁ l₂ →
      l₁.map sortMembers = l₂.map sortMembers := by
  intro l₁ l₂ hf
  induction hf with
  | nil => rfl
  | cons h hs ih =>
    rw [List.map_cons, List.map_cons, sortMembers_eq_of_groupEquiv _ _ h, ih]

/-- C5: normalization is idempotent, and any two manifests (with the data
model's unique group names) containing the same groups and members in any
order normalize to identical output. -/
theorem normalize_idempotent_and_order_independent (P P₁ P₂ : Package)
    (hv : P₁.version = P₂.version)
    (hequiv : ∃ l, List.Perm P₁.types l ∧ List.Forall₂ GroupEquiv l P₂.types)
    (hn : (namesOf P₁).Nodup) :
    normalize (normalize P) = normalize P ∧ normalize P₁ = normalize P₂ := by
  refine ⟨normalize_idem P, ?_⟩
  rcases hequiv with ⟨l, hpl, hf⟩
  have hmap : l.map sortMembers = P₂.types.map sortMembers :=
    map_sortMembers_eq_of_forall₂ hf
  have hperm : List.Perm (P₁.types.map sortMembers) (P₂.types.map sortMembers) := by
    rw [← hmap]
    exact hpl.map sortMembers
  have htypes : (normalize P₁).types = (normalize P₂).types := by
    refine eq_of_perm_of_sorted_names ?_ (sorted_types_normalize P₁)
      (sorted_types_normalize P₂) ?_
    · exact ((types_normalize_perm P₁).trans hperm).trans (types_normalize_perm P₂).symm
    · exact nodup_namesOf_normalize P₁ hn
  exact package_eq_of _ _ (by rw [version_normalize, version_normalize, hv]) htypes

/-- Witness for C5: shuffled groups and shuffled members normalize alike. -/
theorem normalize_idempotent_witness :
    (samplePackageP1.version = samplePackageP2.version
      ∧ (∃ l, List.Perm samplePackageP1.types l
          ∧ List.Forall₂ GroupEquiv l samplePackageP2.types)
      ∧ (namesOf samplePackageP1).Nodup)
    ∧ (normalize (normalize samplePackage) = normalize samplePackage
      ∧ normalize samplePackageP1 = normalize samplePackageP2) := by
  have hequiv : ∃ l, List.Perm samplePackageP1.types l
      ∧ List.Forall₂ GroupEquiv l samplePackageP2.types := by
    refine ⟨samplePackageMid, by decide, ?_⟩
    exact List.Forall₂.cons ⟨rfl, by decide⟩
      (List.Forall₂.cons ⟨rfl, by decide⟩ List.Forall₂.nil)
  exact ⟨⟨rfl, hequiv, by decide⟩,
    normalize_idempotent_and_order_independent samplePackage samplePackageP1 samplePackageP2
      rfl hequiv (by decide)⟩

/-- C6: a parsed file lacking the Package container or the types collection
leaves the accumulator unchanged, the remaining files still merge, and the
file's index is reported by the malformed-file log branch. -/
theorem mergeObjects_skips_malformed (acc : Package) (xs ys : List ParsedFile)
    (f : ParsedFile) (h : hasTypesCollection f = false) :
    mergeObjects (xs ++ f :: ys) acc = mergeObjects (xs ++ ys) acc
    ∧ processFile acc f = acc
    ∧ xs.length ∈ malformedIndices (xs ++ f :: ys) :=
  ⟨mergeObjects_skip_malformed acc xs ys f h, processFile_malformed acc f h,
   malformedIndices_mem xs ys f h⟩

/-- Witness for C6: a null parse result between two good files. -/
theorem mergeObjects_skips_malformed_witness :
    hasTypesCollection ParsedFile.nullFile = false
    ∧ (mergeObjects [sampleFileA, ParsedFile.nullFile, sampleFileB] createPackageXmlTemplate
        = mergeObjects [sampleFileA, sampleFileB] createPackageXmlTemplate
      ∧ processFile createPackageXmlTemplate ParsedFile.nullFile = createPackageXmlTemplate
      ∧ 1 ∈ malformedIndices [sampleFileA, ParsedFile.nullFile, sampleFileB]) :=
  ⟨rfl, mergeObjects_skips_malformed createPackageXmlTemplate [sampleFileA] [sampleFileB]
    ParsedFile.nullFile rfl⟩

/-- C7 counterexample: the markup emitted for the normalized empty manifest
omits the groups collection, so re-parsing yields no manifest at all and the
round trip cannot reproduce `normalize createPackageXmlTemplate`. -/
theorem roundtrip_counterexample_empty_manifest :
    emitParsedManifest (normalize createPackageXmlTemplate) = none
    ∧ (emitParsedManifest (normalize createPackageXmlTemplate)).map normalize
        ≠ some (normalize createPackageXmlTemplate) :=
  ⟨by decide, by decide⟩

/-- C7 (amended): for every manifest with at least one group, each group with
at least one member, parsing the emitted markup and normalizing reproduces
the normalized manifest exactly. -/
theorem roundtrip_of_nonempty (m : Package) (hne : m.types ≠ [])
    (hm : ∀ t ∈ m.types, t.members ≠ []) :
    (emitParsedManifest (normalize m)).map normalize = some (normalize m) := by
  rw [emitParsedManifest_exact (normalize m) (types_normalize_ne_nil m hne)
    (members_normalize_ne_nil m hm), Option.map_some', normalize_idem]

/-- Witness for C7 at a two-group manifest. -/
theorem roundtrip_witness :
    (samplePackage.types ≠ [] ∧ ∀ t ∈ samplePackage.types, t.members ≠ [])
    ∧ (emitParsedManifest (normalize samplePackage)).map normalize
        = some (normalize samplePackage) :=
  ⟨⟨by decide, by decide⟩, roundtrip_of_nonempty samplePackage (by decide) (by decide)⟩

/-- C8: the claim says the uncaught-error exit code differs from the normal
completion exit code, but `finish()` and the `uncaughtException` handler both
call `process.exit(1)`: the two codes are equal. -/
theorem exit_codes_equal :
    finishExitCode = 1 ∧ uncaughtExceptionExitCode = 1
      ∧ finishExitCode = uncaughtExceptionExitCode :=
  ⟨rfl, rfl, rfl⟩

/-- C9: `loadConfig` contains no return statement, so it yields `undefined`
for every parsed configuration file, and the startup spread merge leaves the
effective configuration equal to the built-in defaults. -/
theorem loadConfig_returns_undefined (parsedConfigFile : ConfigOverrides) :
    loadConfig parsedConfigFile = none
    ∧ initEffectiveConfig parsedConfigFile = defaultConfig :=
  ⟨rfl, rfl⟩

/-- C10: a cell is filled with the member value only when that value is
truthy: an existing but empty `i`-th member is emitted as the quoted
placeholder, and a non-empty `i`-th member appears verbatim with its
delimiter. -/
theorem csvCell_truthy_only (members : List String) (i : Nat)
    (h : i < members.length) :
    (members.getD i "" = "" → csvCell members i = "\"\",")
    ∧ (members.getD i "" ≠ "" → csvCell members i = members.getD i "" ++ ",") := by
  cases hg : members.get? i with
  | none =>
    exact absurd (List.get?_eq_none.mp hg) (not_le.mpr h)
  | some m =>
    have hgd : members.getD i "" = m := by
      rw [List.getD_eq_getElem?_getD, ← List.get?_eq_getElem?, hg]
      rfl
    constructor
    · intro he
      rw [csvCell, hg]
      show (if m = "" then "\"\"," else m ++ ",") = "\"\","
      rw [if_pos (hgd.symm.trans he)]
    · intro he
      rw [csvCell, hg]
      show (if m = "" then "\"\"," else m ++ ",") = members.getD i "" ++ ","
      rw [if_neg (fun hm => he (hgd.trans hm)), hgd]

/-- Witness for C10 at a group whose first member is the empty string. -/
theorem csvCell_truthy_witness :
    0 < (["", "Foo"] : List String).length
    ∧ (((["", "Foo"] : List String).getD 0 "" = "" → csvCell ["", "Foo"] 0 = "\"\",")
      ∧ ((["", "Foo"] : List String).getD 0 "" ≠ "" →
          csvCell ["", "Foo"] 0 = (["", "Foo"] : List String).getD 0 "" ++ ",")) :=
  ⟨by decide, csvCell_truthy_only ["", "Foo"] 0 (by decide)⟩

end ChangeLogBuilder
